import Mathlib

/-!
Shallow embedding of `src/utils/title_matching.py` (artwork-uploader-plex).

Python strings are modelled as `List Char` (sequences of Unicode code
points); `Optional[str]` is `Option (List Char)`.  The Python built-in
character classifications `str.isspace`, `str.isalnum` and the case map
`str.lower` are modelled on the code-point blocks exercised by this
repository (Basic Latin, Latin-1 Supplement, Latin Extended-A); code
points outside those blocks are classified as neither alphanumeric nor
whitespace, and are left unchanged by the case map.
-/

/-- Models Python `str.isspace` on a code point: the characters
`\t \n \v \f \r`, the field/file/group/record separators `0x1C`-`0x1F`,
the ASCII space, NEL `0x85`, NBSP `0xA0`, and the Unicode space
separators `0x1680`, `0x2000`-`0x200A`, `0x2028`, `0x2029`, `0x202F`,
`0x205F`, `0x3000`. -/
def isSpaceCode (n : Nat) : Bool :=
  (9 ≤ n && n ≤ 13) || (28 ≤ n && n ≤ 31) || n == 32 || n == 0x85 || n == 0xA0 ||
  n == 0x1680 || (0x2000 ≤ n && n ≤ 0x200A) || n == 0x2028 || n == 0x2029 ||
  n == 0x202F || n == 0x205F || n == 0x3000

/-- Models Python `str.isalnum` on a code point, restricted to the Basic
Latin, Latin-1 Supplement and Latin Extended-A blocks: ASCII digits and
letters, the Latin-1 letters (`0xC0`-`0xD6`, `0xD8`-`0xF6`, `0xF8`-`0xFF`,
plus `ª µ º`), the Latin-1 numeric characters (`² ³ ¹ ¼ ½ ¾`), and the
Latin Extended-A letters `0x100`-`0x17F`. -/
def isAlnumCode (n : Nat) : Bool :=
  (0x30 ≤ n && n ≤ 0x39) || (0x41 ≤ n && n ≤ 0x5A) || (0x61 ≤ n && n ≤ 0x7A) ||
  n == 0xAA || (0xB2 ≤ n && n ≤ 0xB3) || n == 0xB5 || (0xB9 ≤ n && n ≤ 0xBA) ||
  (0xBC ≤ n && n ≤ 0xBE) ||
  (0xC0 ≤ n && n ≤ 0xD6) || (0xD8 ≤ n && n ≤ 0xF6) || (0xF8 ≤ n && n ≤ 0x17F)

/-- Models Python `str.lower` on a code point, restricted to the ASCII and
Latin-1 uppercase letters (`A`-`Z`, `À`-`Ö`, `Ø`-`Þ`), each of which is
lowered by adding `0x20`; every other code point is unchanged. -/
def toLowerCode (n : Nat) : Nat :=
  if (0x41 ≤ n && n ≤ 0x5A) || (0xC0 ≤ n && n ≤ 0xD6) || (0xD8 ≤ n && n ≤ 0xDE) then
    n + 0x20
  else n

/-- Python `ch.isspace()` for a single character. -/
def pyIsSpace (c : Char) : Bool := isSpaceCode c.toNat

/-- Python `ch.isalnum()` for a single character. -/
def pyIsAlnum (c : Char) : Bool := isAlnumCode c.toNat

/-- Python lowercasing of a single character. -/
def pyLowerChar (c : Char) : Char := Char.ofNat (toLowerCode c.toNat)

/-- Python `s.lower()`: lowercases every character. -/
def pyLower (s : List Char) : List Char := s.map pyLowerChar

/-- The filter predicate of the comprehension
`ch for ch in title if ch.isalnum() or ch.isspace()`. -/
def pyKeep (c : Char) : Bool := pyIsAlnum c || pyIsSpace c

/-- Worker for Python `s.split()` (split on runs of whitespace, discarding
empty fragments): `acc` holds the characters of the word currently being
read, in reverse order. -/
def pySplitAux : List Char → List Char → List (List Char)
  | [], acc => if acc.isEmpty then [] else [acc.reverse]
  | c :: cs, acc =>
    if pyIsSpace c then
      if acc.isEmpty then pySplitAux cs [] else acc.reverse :: pySplitAux cs []
    else pySplitAux cs (c :: acc)

/-- Python `s.split()` with no arguments: the maximal whitespace-free
non-empty fragments of `s`, in order. -/
def pySplit (s : List Char) : List (List Char) := pySplitAux s []

/-- Python `" ".join(ws)`: concatenates the fragments with a single ASCII
space between consecutive fragments. -/
def pyJoinWithSpace : List (List Char) → List Char
  | [] => []
  | [w] => w
  | w :: x :: ws => w ++ ' ' :: pyJoinWithSpace (x :: ws)

/-- Embedding of `normalize_title_for_matching` from
`src/utils/title_matching.py`:

    if not title:
        return ""
    normalized = ''.join(ch for ch in title if ch.isalnum() or ch.isspace())
    normalized = " ".join(normalized.split())
    return normalized

`if not title` is taken when the title is `None` or the empty string. -/
def normalize_title_for_matching (title : Option (List Char)) : List Char :=
  match title with
  | none => []
  | some s =>
    if s = [] then []
    else pyJoinWithSpace (pySplit (s.filter pyKeep))

/-- Embedding of `normalize_title_for_comparison`:
`return normalize_title_for_matching(title).lower()`. -/
def normalize_title_for_comparison (title : Option (List Char)) : List Char :=
  pyLower (normalize_title_for_matching title)

/-- Embedding of `fuzzy_title_match`:
`return normalize_title_for_comparison(title1) == normalize_title_for_comparison(title2)`. -/
def fuzzy_title_match (title1 title2 : Option (List Char)) : Bool :=
  decide (normalize_title_for_comparison title1 = normalize_title_for_comparison title2)

/-- Shape of a normalized title: only (model-)alphanumeric characters and
ASCII spaces, never two consecutive spaces, and no leading or trailing
space. -/
def WellFormedOutput (l : List Char) : Prop :=
  (∀ c ∈ l, pyIsAlnum c = true ∨ c = ' ') ∧
  List.Chain' (fun a b => ¬(a = ' ' ∧ b = ' ')) l ∧
  l.head? ≠ some ' ' ∧ l.getLast? ≠ some ' '

/-- Lists of words as produced by `pySplit`: each word is non-empty and
contains no whitespace character. -/
def GoodWords (ws : List (List Char)) : Prop :=
  ∀ w ∈ ws, w ≠ [] ∧ ∀ x ∈ w, pyIsSpace x = false

/-! Basic facts about the character classification. -/

theorem isSpaceCode_not_alnum (n : Nat) (h : isSpaceCode n = true) :
    isAlnumCode n = false := by
  rw [Bool.eq_false_iff]
  intro hA
  simp only [isSpaceCode, Bool.or_eq_true, Bool.and_eq_true,
    decide_eq_true_eq, beq_iff_eq] at h
  simp only [isAlnumCode, Bool.or_eq_true, Bool.and_eq_true,
    decide_eq_true_eq, beq_iff_eq] at hA
  omega

theorem pyIsSpace_not_alnum {c : Char} (h : pyIsSpace c = true) :
    pyIsAlnum c = false :=
  isSpaceCode_not_alnum c.toNat h

theorem pyIsSpace_space : pyIsSpace ' ' = true := by decide

theorem pyIsAlnum_space : pyIsAlnum ' ' = false := by decide

theorem ne_space_of_not_space {c : Char} (h : pyIsSpace c = false) : c ≠ ' ' := by
  intro hc
  rw [hc, pyIsSpace_space] at h
  exact Bool.noConfusion h

/-! Structural facts about `pySplit`. -/

/-- Every fragment produced by the split worker is non-empty and free of
whitespace, and its characters come from the input or the accumulator. -/
theorem pySplitAux_good (l : List Char) : ∀ acc,
    (∀ x ∈ acc, pyIsSpace x = false) →
    ∀ w ∈ pySplitAux l acc, w ≠ [] ∧ ∀ x ∈ w, pyIsSpace x = false ∧ (x ∈ l ∨ x ∈ acc) := by
  induction l with
  | nil =>
    intro acc hacc w hw
    simp only [pySplitAux] at hw
    split at hw
    · exact absurd hw (List.not_mem_nil w)
    · next hne =>
      rw [List.mem_singleton] at hw
      subst hw
      refine ⟨fun hrev => hne ?_, fun x hx => ?_⟩
      · rw [List.isEmpty_iff, ← List.reverse_eq_nil_iff, hrev]
      · exact ⟨hacc x (List.mem_reverse.mp hx), Or.inr (List.mem_reverse.mp hx)⟩
  | cons c cs ih =>
    intro acc hacc w hw
    simp only [pySplitAux] at hw
    split at hw
    · split at hw
      · obtain ⟨h1, h2⟩ := ih [] (by intro x hx; cases hx) w hw
        exact ⟨h1, fun x hx => ⟨(h2 x hx).1,
          Or.inl (List.mem_cons_of_mem c ((h2 x hx).2.resolve_right (by intro h; cases h)))⟩⟩
      · next hne =>
        rcases List.mem_cons.mp hw with hw | hw
        · subst hw
          refine ⟨fun hrev => hne ?_, fun x hx => ?_⟩
          · rw [List.isEmpty_iff, ← List.reverse_eq_nil_iff, hrev]
          · exact ⟨hacc x (List.mem_reverse.mp hx), Or.inr (List.mem_reverse.mp hx)⟩
        · obtain ⟨h1, h2⟩ := ih [] (by intro x hx; cases hx) w hw
          exact ⟨h1, fun x hx => ⟨(h2 x hx).1,
            Or.inl (List.mem_cons_of_mem c ((h2 x hx).2.resolve_right (by intro h; cases h)))⟩⟩
    · next hcs =>
      have hc : pyIsSpace c = false := Bool.not_eq_true _ ▸ Bool.of_not_eq_true hcs
      have hpre : ∀ x ∈ c :: acc, pyIsSpace x = false := by
        intro x hx
        rcases List.mem_cons.mp hx with h | h
        · exact h ▸ hc
        · exact hacc x h
      obtain ⟨h1, h2⟩ := ih (c :: acc) hpre w hw
      refine ⟨h1, fun x hx => ⟨(h2 x hx).1, ?_⟩⟩
      rcases (h2 x hx).2 with h | h
      · exact Or.inl (List.mem_cons_of_mem c h)
      · rcases List.mem_cons.mp h with h | h
        · exact Or.inl (h ▸ List.mem_cons_self c cs)
        · exact Or.inr h

/-- Flattening the split of `l` yields exactly the non-whitespace
characters of `l`, in order. -/
theorem pySplitAux_flatten (l : List Char) : ∀ acc,
    (pySplitAux l acc).flatten = acc.reverse ++ l.filter (fun c => !pyIsSpace c) := by
  induction l with
  | nil =>
    intro acc
    simp only [pySplitAux]
    split
    · next he => simp [List.isEmpty_iff.mp he]
    · simp
  | cons c cs ih =>
    intro acc
    simp only [pySplitAux]
    split
    · next hc =>
      split
      · next he =>
        simp [List.isEmpty_iff.mp he, ih, List.filter_cons, hc]
      · simp [ih, List.filter_cons, hc]
    · next hc =>
      have hc' : pyIsSpace c = false := Bool.not_eq_true _ ▸ Bool.of_not_eq_true hc
      simp [ih, List.filter_cons, hc']

/-- Feeding a whitespace-free block into the split worker just pushes it
onto the accumulator. -/
theorem pySplitAux_append_nonspace (w : List Char) (h : ∀ x ∈ w, pyIsSpace x = false) :
    ∀ r acc, pySplitAux (w ++ r) acc = pySplitAux r (w.reverse ++ acc) := by
  induction w with
  | nil => intro r acc; simp
  | cons c cs ih =>
    intro r acc
    have hc : pyIsSpace c = false := h c (List.mem_cons_self c cs)
    simp only [List.cons_append, pySplitAux, hc, Bool.false_eq_true, if_false]
    show pySplitAux (cs ++ r) (c :: acc) = _
    rw [ih (fun x hx => h x (List.mem_cons_of_mem c hx)) r (c :: acc)]
    simp

/-- All fragments of `pySplit l` are non-empty, whitespace-free, and made
of characters of `l`. -/
theorem pySplit_good (l : List Char) :
    ∀ w ∈ pySplit l, w ≠ [] ∧ ∀ x ∈ w, pyIsSpace x = false ∧ x ∈ l := by
  intro w hw
  obtain ⟨h1, h2⟩ := pySplitAux_good l [] (by intro x hx; cases hx) w hw
  exact ⟨h1, fun x hx => ⟨(h2 x hx).1, (h2 x hx).2.resolve_right (by intro h; cases h)⟩⟩

/-- Flattening `pySplit l` recovers the non-whitespace characters of `l`. -/
theorem pySplit_flatten (l : List Char) :
    (pySplit l).flatten = l.filter (fun c => !pyIsSpace c) := by
  simpa using pySplitAux_flatten l []

/-- The output of `pySplit` satisfies `GoodWords`. -/
theorem goodWords_pySplit (l : List Char) : GoodWords (pySplit l) := by
  intro w hw
  obtain ⟨h1, h2⟩ := pySplit_good l w hw
  exact ⟨h1, fun x hx => (h2 x hx).1⟩

/-! Structural facts about `pyJoinWithSpace`. -/

/-- Joining a non-empty list of non-empty words is non-empty. -/
theorem pyJoin_ne_nil {ws : List (List Char)} (h : GoodWords ws) (hne : ws ≠ []) :
    pyJoinWithSpace ws ≠ [] := by
  match ws with
  | [] => exact absurd rfl hne
  | [w] => exact (h w (List.mem_singleton_self w)).1
  | w :: x :: ws' =>
    show w ++ ' ' :: pyJoinWithSpace (x :: ws') ≠ []
    simp

/-- Splitting undoes joining on good word lists. -/
theorem pySplit_pyJoin : ∀ {ws : List (List Char)}, GoodWords ws →
    pySplit (pyJoinWithSpace ws) = ws := by
  intro ws
  induction ws with
  | nil => intro _; rfl
  | cons w ws ih =>
    intro h
    have hw := h w (List.mem_cons_self w ws)
    have hwrev : w.reverse.isEmpty = false := by
      rw [List.isEmpty_eq_false_iff_exists_mem]
      obtain ⟨c, hc⟩ := List.exists_mem_of_ne_nil w hw.1
      exact ⟨c, List.mem_reverse.mpr hc⟩
    match ws with
    | [] =>
      show pySplit (pyJoinWithSpace [w]) = [w]
      have h1 : pySplitAux (w ++ []) [] = pySplitAux [] (w.reverse ++ []) :=
        pySplitAux_append_nonspace w hw.2 [] []
      rw [List.append_nil, List.append_nil] at h1
      show pySplitAux w [] = [w]
      rw [h1]
      simp only [pySplitAux, hwrev, Bool.false_eq_true, if_false, List.reverse_reverse]
    | x :: ws' =>
      show pySplit (w ++ ' ' :: pyJoinWithSpace (x :: ws')) = w :: x :: ws'
      have h1 : pySplitAux (w ++ ' ' :: pyJoinWithSpace (x :: ws')) [] =
          pySplitAux (' ' :: pyJoinWithSpace (x :: ws')) (w.reverse ++ []) :=
        pySplitAux_append_nonspace w hw.2 _ []
      rw [List.append_nil] at h1
      show pySplitAux (w ++ ' ' :: pyJoinWithSpace (x :: ws')) [] = w :: x :: ws'
      rw [h1]
      simp only [pySplitAux, pyIsSpace_space, if_true, hwrev, Bool.false_eq_true, if_false,
        List.reverse_reverse]
      rw [show pySplitAux (pyJoinWithSpace (x :: ws')) [] = pySplit (pyJoinWithSpace (x :: ws'))
        from rfl, ih (fun v hv => h v (List.mem_cons_of_mem w hv))]

/-- Every character of a join is a space or a character of a word. -/
theorem mem_pyJoin {c : Char} : ∀ {ws : List (List Char)},
    c ∈ pyJoinWithSpace ws → c = ' ' ∨ ∃ w ∈ ws, c ∈ w := by
  intro ws
  induction ws with
  | nil => intro h; cases h
  | cons w ws ih =>
    intro h
    match ws with
    | [] => exact Or.inr ⟨w, List.mem_singleton_self w, h⟩
    | x :: ws' =>
      rcases List.mem_append.mp h with h | h
      · exact Or.inr ⟨w, List.mem_cons_self w _, h⟩
      · rcases List.mem_cons.mp h with h | h
        · exact Or.inl h
        · rcases ih h with h | ⟨v, hv, hc⟩
          · exact Or.inl h
          · exact Or.inr ⟨v, List.mem_cons_of_mem w hv, hc⟩

/-- The first character of a join of good words is never a space. -/
theorem pyJoin_head {ws : List (List Char)} (h : GoodWords ws) :
    ∀ x, (pyJoinWithSpace ws).head? = some x → x ≠ ' ' := by
  match ws with
  | [] => intro x hx; cases hx
  | [w] =>
    intro x hx
    have hw := h w (List.mem_singleton_self w)
    exact ne_space_of_not_space (hw.2 x (List.mem_of_mem_head? hx))
  | w :: v :: ws' =>
    intro x hx
    have hw := h w (List.mem_cons_self w _)
    rw [show pyJoinWithSpace (w :: v :: ws') = w ++ ' ' :: pyJoinWithSpace (v :: ws') from rfl,
      List.head?_append_of_ne_nil w hw.1] at hx
    exact ne_space_of_not_space (hw.2 x (List.mem_of_mem_head? hx))

/-- The last character of a join of good words is never a space. -/
theorem pyJoin_getLast : ∀ {ws : List (List Char)}, GoodWords ws →
    ∀ x, (pyJoinWithSpace ws).getLast? = some x → x ≠ ' ' := by
  intro ws
  induction ws with
  | nil => intro _ x hx; cases hx
  | cons w ws ih =>
    intro h x hx
    match ws with
    | [] =>
      have hw := h w (List.mem_singleton_self w)
      exact ne_space_of_not_space (hw.2 x (List.mem_of_mem_getLast? hx))
    | v :: ws' =>
      have hrest : GoodWords (v :: ws') := fun u hu => h u (List.mem_cons_of_mem w hu)
      have hJ : pyJoinWithSpace (v :: ws') ≠ [] := pyJoin_ne_nil hrest (by simp)
      rw [show pyJoinWithSpace (w :: v :: ws') = w ++ ' ' :: pyJoinWithSpace (v :: ws') from rfl,
        List.getLast?_append_cons,
        show (' ' :: pyJoinWithSpace (v :: ws')) = [' '] ++ pyJoinWithSpace (v :: ws') from rfl,
        List.getLast?_append_of_ne_nil [' '] hJ] at hx
      exact ih hrest x hx

/-- A list of non-space characters has no two consecutive spaces. -/
theorem chain'_of_no_space {w : List Char} (h : ∀ x ∈ w, pyIsSpace x = false) :
    List.Chain' (fun a b => ¬(a = ' ' ∧ b = ' ')) w := by
  induction w with
  | nil => exact List.chain'_nil
  | cons a l ih =>
    refine List.chain'_cons'.mpr ⟨fun y _ hy => ?_, ih fun x hx => h x (List.mem_cons_of_mem a hx)⟩
    exact ne_space_of_not_space (h a (List.mem_cons_self a l)) hy.1

/-- A join of good words never contains two consecutive spaces. -/
theorem pyJoin_chain : ∀ {ws : List (List Char)}, GoodWords ws →
    List.Chain' (fun a b => ¬(a = ' ' ∧ b = ' ')) (pyJoinWithSpace ws) := by
  intro ws
  induction ws with
  | nil => intro _; exact List.chain'_nil
  | cons w ws ih =>
    intro h
    have hw := h w (List.mem_cons_self w ws)
    match ws with
    | [] => exact chain'_of_no_space hw.2
    | v :: ws' =>
      have hrest : GoodWords (v :: ws') := fun u hu => h u (List.mem_cons_of_mem w hu)
      show List.Chain' _ (w ++ ' ' :: pyJoinWithSpace (v :: ws'))
      refine List.chain'_append.mpr ⟨chain'_of_no_space hw.2, ?_, ?_⟩
      · refine List.chain'_cons'.mpr ⟨fun y hy hc => ?_, ih hrest⟩
        exact pyJoin_head hrest y hy hc.2
      · intro a ha b hb hc
        rw [List.head?_cons, Option.mem_some_iff] at hb
        exact ne_space_of_not_space (hw.2 a (List.mem_of_mem_getLast? ha)) hc.1

/-! Facts about the normalization pipeline. -/

/-- Canonical form of `normalize_title_for_matching` on a present title:
filter, split, rejoin (the empty-title guard is absorbed, as both branches
agree on the empty string). -/
theorem ntm_some_eq (s : List Char) :
    normalize_title_for_matching (some s) = pyJoinWithSpace (pySplit (s.filter pyKeep)) := by
  show (if s = [] then [] else pyJoinWithSpace (pySplit (s.filter pyKeep))) = _
  split
  · next hs => subst hs; rfl
  · rfl

/-- Every character of a normalized title is alphanumeric or an ASCII
space. -/
theorem ntm_mem (t : Option (List Char)) :
    ∀ c ∈ normalize_title_for_matching t, pyIsAlnum c = true ∨ c = ' ' := by
  match t with
  | none => intro c hc; cases hc
  | some s =>
    rw [ntm_some_eq]
    intro c hc
    rcases mem_pyJoin hc with h | ⟨w, hw, hcw⟩
    · exact Or.inr h
    · obtain ⟨_, h2⟩ := pySplit_good _ w hw
      have hcs : pyIsSpace c = false := (h2 c hcw).1
      have hkeep : pyKeep c = true := (List.mem_filter.mp ((h2 c hcw).2)).2
      simp only [pyKeep, Bool.or_eq_true] at hkeep
      rcases hkeep with h | h
      · exact Or.inl h
      · rw [hcs] at h
        exact Bool.noConfusion h

/-- Normalizing a normalized title changes nothing. -/
theorem ntm_fix (t : Option (List Char)) :
    normalize_title_for_matching (some (normalize_title_for_matching t)) =
      normalize_title_for_matching t := by
  have hfilter : (normalize_title_for_matching t).filter pyKeep =
      normalize_title_for_matching t := by
    apply List.filter_eq_self.mpr
    intro c hc
    rcases ntm_mem t c hc with h | h
    · simp [pyKeep, h]
    · subst h; decide
  rw [ntm_some_eq, hfilter]
  match t with
  | none => rfl
  | some s =>
    rw [ntm_some_eq s, pySplit_pyJoin (goodWords_pySplit _)]

/-- Filtering a join through a predicate rejecting the space yields the
filter of the flattened words. -/
theorem filter_pyJoin {q : Char → Bool} (hq : q ' ' = false) :
    ∀ ws : List (List Char), (pyJoinWithSpace ws).filter q = ws.flatten.filter q := by
  intro ws
  induction ws with
  | nil => rfl
  | cons w ws ih =>
    match ws with
    | [] => simp [pyJoinWithSpace]
    | x :: ws' =>
      show ((w ++ ' ' :: pyJoinWithSpace (x :: ws')).filter q) = _
      rw [List.filter_append, List.filter_cons, hq]
      simp only [List.flatten_cons, List.filter_append, ih]
      simp

/-- Normalization preserves the subsequence of alphanumeric characters. -/
theorem ntm_filter_alnum (s : List Char) :
    (normalize_title_for_matching (some s)).filter pyIsAlnum = s.filter pyIsAlnum := by
  rw [ntm_some_eq, filter_pyJoin pyIsAlnum_space, pySplit_flatten, List.filter_filter,
    List.filter_filter]
  apply List.filter_congr
  intro x _
  cases halnum : pyIsAlnum x
  · simp
  · have hs : pyIsSpace x = false := by
      cases hsp : pyIsSpace x
      · rfl
      · rw [pyIsSpace_not_alnum hsp] at halnum
        exact Bool.noConfusion halnum
    simp [pyKeep, halnum, hs]

/-- A title containing an alphanumeric character has a non-empty
comparison normalization. -/
theorem ntc_ne_nil_of_any_alnum {t : List Char} (h : t.any pyIsAlnum = true) :
    normalize_title_for_comparison (some t) ≠ [] := by
  intro h0
  have hntm : normalize_title_for_matching (some t) = [] := by
    have := congrArg List.length h0
    rw [normalize_title_for_comparison, pyLower, List.length_map] at this
    exact List.eq_nil_of_length_eq_zero this
  have hfa := ntm_filter_alnum t
  rw [hntm, List.filter_nil] at hfa
  obtain ⟨x, hx, hpx⟩ := List.any_eq_true.mp h
  have hmem : x ∈ t.filter pyIsAlnum := List.mem_filter.mpr ⟨hx, hpx⟩
  rw [← hfa] at hmem
  cases hmem

/-! Claim theorems. -/

/-- C1: for every pair of inputs (each absent or a string),
`fuzzy_title_match` returns true if and only if the comparison
normalizations of the two inputs are equal as strings; in particular two
absent titles match. -/
theorem fuzzy_title_match_iff_normalized_eq :
    (∀ t1 t2 : Option (List Char), fuzzy_title_match t1 t2 = true ↔
      normalize_title_for_comparison t1 = normalize_title_for_comparison t2) ∧
    fuzzy_title_match none none = true := by
  constructor
  · intro t1 t2
    simp [fuzzy_title_match]
  · decide

/-- C2: for every input (absent or any string), the output of
`normalize_title_for_matching` consists only of alphanumeric characters
and ASCII spaces, with no two consecutive spaces and no leading or
trailing space. -/
theorem normalize_matching_wellFormed (t : Option (List Char)) :
    WellFormedOutput (normalize_title_for_matching t) := by
  match t with
  | none =>
    exact ⟨fun c hc => absurd hc (List.not_mem_nil c), List.chain'_nil, by decide, by decide⟩
  | some s =>
    refine ⟨ntm_mem (some s), ?_, ?_, ?_⟩
    · rw [ntm_some_eq]
      exact pyJoin_chain (goodWords_pySplit _)
    · rw [ntm_some_eq]
      intro hh
      exact pyJoin_head (goodWords_pySplit _) ' ' hh rfl
    · rw [ntm_some_eq]
      intro hh
      exact pyJoin_getLast (goodWords_pySplit _) ' ' hh rfl

/-- C3 counterexample: the present, non-empty title made of three periods
normalizes to the empty string, so it DOES match the absent title,
refuting the claim that an absent title never matches a present
non-empty title. -/
theorem absent_matches_punctuation_title :
    ("...".data) ≠ [] ∧ fuzzy_title_match none (some ("...".data)) = true := by
  constructor
  · decide
  · decide

/-- C3 (amended): for every present string containing at least one
alphanumeric character, `fuzzy_title_match` with the absent title is
false, in both argument orders. -/
theorem absent_no_match_alnum_title (t : List Char) (h : t.any pyIsAlnum = true) :
    fuzzy_title_match none (some t) = false ∧ fuzzy_title_match (some t) none = false := by
  have hne := ntc_ne_nil_of_any_alnum h
  have hnone : normalize_title_for_comparison none = [] := rfl
  constructor
  · simp only [fuzzy_title_match]
    rw [decide_eq_false]
    intro heq
    exact hne (by rw [← heq, hnone])
  · simp only [fuzzy_title_match]
    rw [decide_eq_false]
    intro heq
    exact hne (by rw [heq, hnone])

/-- Witness for the amended C3 at the concrete title "Something". -/
theorem absent_no_match_alnum_title_witness :
    (("Something".data).any pyIsAlnum = true) ∧
    (fuzzy_title_match none (some ("Something".data)) = false ∧
     fuzzy_title_match (some ("Something".data)) none = false) :=
  ⟨by decide, absent_no_match_alnum_title ("Something".data) (by decide)⟩

/-- C4: comparison normalization is exactly matching normalization
followed by lowercasing the whole string. -/
theorem comparison_eq_lower_matching (t : Option (List Char)) :
    normalize_title_for_comparison t = pyLower (normalize_title_for_matching t) := rfl

/-- C5: `normalize_title_for_matching` is idempotent. -/
theorem normalize_matching_idempotent (t : Option (List Char)) :
    normalize_title_for_matching (some (normalize_title_for_matching t)) =
      normalize_title_for_matching t := ntm_fix t

/-- C6: normalization deletes non-alphanumeric, non-whitespace characters
outright and keeps every alphanumeric character with its case: the
subsequence of alphanumeric characters of the output equals that of the
input; fragments joined only by punctuation concatenate, fragments also
separated by a space stay separated by one space. -/
theorem normalize_matching_alnum_subsequence :
    (∀ s : List Char,
      (normalize_title_for_matching (some s)).filter pyIsAlnum = s.filter pyIsAlnum) ∧
    normalize_title_for_matching (some ("Spider-Man".data)) = ("SpiderMan".data) ∧
    normalize_title_for_matching (some ("S.H.I.E.L.D.".data)) = ("SHIELD".data) ∧
    normalize_title_for_matching (some ("Star Wars: Episode IV".data)) =
      ("Star Wars Episode IV".data) :=
  ⟨ntm_filter_alnum, by decide, by decide, by decide⟩

/-- C7: the literal scenarios hold: multi-space collapse, punctuation-only
input normalizing to the empty string, and preservation of non-ASCII
letters. -/
theorem normalize_matching_literal_scenarios :
    normalize_title_for_matching (some ("The   Matrix".data)) = ("The Matrix".data) ∧
    normalize_title_for_matching (some ("...!!!???".data)) = [] ∧
    normalize_title_for_matching (some ("Thor: Ragnarök".data)) = ("Thor Ragnarök".data) :=
  ⟨by decide, by decide, by decide⟩

/-- C8: all three operations are total (every call yields a value), and
both normalizations return the empty string on absent or empty input. -/
theorem title_functions_total :
    normalize_title_for_matching none = [] ∧
    normalize_title_for_matching (some []) = [] ∧
    normalize_title_for_comparison none = [] ∧
    normalize_title_for_comparison (some []) = [] ∧
    ∀ t1 t2 : Option (List Char),
      fuzzy_title_match t1 t2 = true ∨ fuzzy_title_match t1 t2 = false :=
  ⟨rfl, rfl, rfl, rfl, fun _ _ => Bool.eq_false_or_eq_true _⟩

/-- C9: `fuzzy_title_match` is reflexive and symmetric. -/
theorem fuzzy_title_match_refl_symm :
    (∀ t : Option (List Char), fuzzy_title_match t t = true) ∧
    (∀ t1 t2 : Option (List Char), fuzzy_title_match t1 t2 = fuzzy_title_match t2 t1) := by
  constructor
  · intro t
    simp [fuzzy_title_match]
  · intro t1 t2
    simp only [fuzzy_title_match]
    exact decide_eq_decide.mpr eq_comm

/-- C10: matching normalization does not change the comparison class:
comparison-normalizing a matching-normalized title gives the same string
as comparison-normalizing the original, and every title fuzzy-matches its
own matching normalization. -/
theorem normalize_matching_stable_comparison (t : Option (List Char)) :
    normalize_title_for_comparison (some (normalize_title_for_matching t)) =
      normalize_title_for_comparison t ∧
    fuzzy_title_match t (some (normalize_title_for_matching t)) = true := by
  have h : normalize_title_for_comparison (some (normalize_title_for_matching t)) =
      normalize_title_for_comparison t := by
    show pyLower _ = pyLower _
    rw [ntm_fix]
  exact ⟨h, by simp [fuzzy_title_match, h]⟩
